import Mathlib

/-!
Verification of the binary container-scanning core of
`extract_videos.py`: a tool that splits "motion photo" JPEG files
(a JPEG with a video container appended after its end-of-image marker)
into standalone video files.

Byte buffers are modelled as `List Nat` (each element one byte).
Python's `bytes.find` is modelled by `bytesFind`, `bytes.startswith`
by `startsWithB`, and `int.from_bytes(_, "big")` by `from_bytes_be`.
-/

/-- Model of Python's `bytes.startswith`: `startsWithB hay needle` is
`true` when `needle` is an initial run of `hay`. -/
def startsWithB : List Nat → List Nat → Bool
  | _, [] => true
  | [], _ :: _ => false
  | a :: as, b :: bs => (a == b) && startsWithB as bs

/-- Model of Python's `bytes.find`: index of the first occurrence of
`needle` in the haystack, `none` when absent. -/
def bytesFind (needle : List Nat) : List Nat → Option Nat
  | [] => if startsWithB [] needle then some 0 else none
  | a :: t =>
    if startsWithB (a :: t) needle then some 0
    else (bytesFind needle t).map (· + 1)

/-- Model of Python's `nd in x` substring test: `containsSub hay needle`. -/
def containsSub (hay needle : List Nat) : Bool :=
  (bytesFind needle hay).isSome

/-- Model of `int.from_bytes(bs, "big")`: big-endian unsigned value. -/
def from_bytes_be (l : List Nat) : Nat :=
  l.foldl (fun acc b => acc * 256 + b) 0

/-- The `needle` occurs in `hay` starting at index `j`. -/
def occursAt (needle hay : List Nat) (j : Nat) : Prop :=
  startsWithB (hay.drop j) needle = true

instance (needle hay : List Nat) (j : Nat) : Decidable (occursAt needle hay j) := by
  unfold occursAt
  infer_instance

theorem startsWithB_nil_needle (l : List Nat) : startsWithB l [] = true := by
  cases l <;> rfl

theorem startsWithB_refl_append (p r : List Nat) : startsWithB (p ++ r) p = true := by
  induction p with
  | nil => exact startsWithB_nil_needle r
  | cons a as ih => simp [startsWithB, ih]

theorem startsWithB_nonempty {hay needle : List Nat}
    (h : startsWithB hay needle = true) (hne : needle ≠ []) : hay ≠ [] := by
  cases hay with
  | nil =>
    cases needle with
    | nil => exact absurd rfl hne
    | cons b bs => simp [startsWithB] at h
  | cons a as => simp

theorem startsWithB_drop_of_append {l p q : List Nat}
    (h : startsWithB l (p ++ q) = true) : startsWithB (l.drop p.length) q = true := by
  induction p generalizing l with
  | nil => simpa using h
  | cons a as ih =>
    cases l with
    | nil => simp [startsWithB] at h
    | cons b bs =>
      simp only [List.cons_append, startsWithB, Bool.and_eq_true] at h
      simpa using ih h.2

theorem bytesFind_some_occurs {needle hay : List Nat} {i : Nat}
    (h : bytesFind needle hay = some i) : occursAt needle hay i := by
  induction hay generalizing i with
  | nil =>
    unfold bytesFind at h
    by_cases hs : startsWithB [] needle = true
    · simp [hs] at h
      subst h
      exact hs
    · simp [hs] at h
  | cons a t ih =>
    unfold bytesFind at h
    by_cases hs : startsWithB (a :: t) needle = true
    · simp [hs] at h
      subst h
      exact hs
    · simp [hs] at h
      obtain ⟨k, hk, hki⟩ := h
      subst hki
      have := ih hk
      simpa [occursAt, List.drop] using this

theorem bytesFind_some_minimal {needle hay : List Nat} {i : Nat}
    (h : bytesFind needle hay = some i) : ∀ j < i, ¬ occursAt needle hay j := by
  induction hay generalizing i with
  | nil =>
    unfold bytesFind at h
    by_cases hs : startsWithB [] needle = true
    · simp [hs] at h
      subst h
      intro j hj
      omega
    · simp [hs] at h
  | cons a t ih =>
    unfold bytesFind at h
    by_cases hs : startsWithB (a :: t) needle = true
    · simp [hs] at h
      subst h
      intro j hj
      omega
    · simp [hs] at h
      obtain ⟨k, hk, hki⟩ := h
      subst hki
      intro j hj
      cases j with
      | zero =>
        simpa [occursAt] using hs
      | succ m =>
        have hm : m < k := by omega
        have := ih hk m hm
        simpa [occursAt, List.drop] using this

theorem bytesFind_none_no_occurs {needle hay : List Nat}
    (h : bytesFind needle hay = none) : ∀ j, ¬ occursAt needle hay j := by
  induction hay with
  | nil =>
    unfold bytesFind at h
    by_cases hs : startsWithB [] needle = true
    · simp [hs] at h
    · intro j
      simpa [occursAt, List.drop_nil] using hs
  | cons a t ih =>
    unfold bytesFind at h
    by_cases hs : startsWithB (a :: t) needle = true
    · simp [hs] at h
    · simp [hs] at h
      intro j
      cases j with
      | zero => simpa [occursAt] using hs
      | succ m =>
        have := ih h m
        simpa [occursAt, List.drop] using this

theorem bytesFind_isSome_of_occurs {needle hay : List Nat} {j : Nat}
    (h : occursAt needle hay j) : (bytesFind needle hay).isSome = true := by
  induction hay generalizing j with
  | nil =>
    unfold occursAt at h
    rw [List.drop_nil] at h
    unfold bytesFind
    simp [h]
  | cons a t ih =>
    unfold bytesFind
    by_cases hs : startsWithB (a :: t) needle = true
    · simp [hs]
    · simp [hs]
      cases j with
      | zero =>
        exact absurd h hs
      | succ m =>
        have hm : occursAt needle t m := by
          simpa [occursAt, List.drop] using h
        simpa using ih hm

theorem containsSub_iff_occurs (hay needle : List Nat) :
    containsSub hay needle = true ↔ ∃ j, occursAt needle hay j := by
  constructor
  · intro h
    unfold containsSub at h
    rw [Option.isSome_iff_exists] at h
    obtain ⟨i, hi⟩ := h
    exact ⟨i, bytesFind_some_occurs hi⟩
  · rintro ⟨j, hj⟩
    exact bytesFind_isSome_of_occurs hj

/-! ### Embedding of the core functions of `extract_videos.py` -/

/-- The JPEG end-of-image marker bytes `b"\xff\xd9"`. -/
def eoiMarker : List Nat := [0xFF, 0xD9]

/-- The JPEG start-of-image marker bytes `b"\xff\xd8"`. -/
def soiMarker : List Nat := [0xFF, 0xD8]

/-- The XMP namespace signature `b"http://ns.adobe.com/xap/1.0/"` (ASCII). -/
def xmp_sig : List Nat :=
  [104, 116, 116, 112, 58, 47, 47, 110, 115, 46, 97, 100, 111, 98, 101,
   46, 99, 111, 109, 47, 120, 97, 112, 47, 49, 46, 48, 47]

/-- The container signature `b"ftyp"` (ASCII). -/
def ftypSig : List Nat := [102, 116, 121, 112]

/-- Embedding of `find_jpeg_eoi`: find the first `0xFFD9` and return the
index of the byte after it; `none` when the marker is absent. -/
def find_jpeg_eoi (data : List Nat) : Option Nat :=
  (bytesFind eoiMarker data).map (· + 2)

/-- Handling of one scanned segment payload (lines 64-71 of the source):
when the payload begins with `xmp_sig`, the appended packet is everything
after the first zero byte when one exists, else the raw payload; when the
payload does not begin with `xmp_sig`, nothing is appended. -/
def processSegment (segment : List Nat) : Option (List Nat) :=
  if startsWithB segment xmp_sig then
    match bytesFind [0] segment with
    | some zero_idx => some (segment.drop (zero_idx + 1))
    | none => some segment
  else none

/-- One iteration of the `extract_xmp_packets` scan loop at position `i`:
`none` when the loop stops at `i` (any `break` or the loop condition
failing), `some (packet?, seg_end)` when the iteration completes, with
`packet?` the payload appended this iteration (if any) and `seg_end` the
next scan position. -/
def scanStep (data : List Nat) (i : Nat) : Option (Option (List Nat) × Nat) :=
  let n := data.length
  if i < n - 1 then
    if data.getD i 0 ≠ 0xFF then none
    else
      let marker := data.getD (i + 1) 0
      let j := i + 2
      if marker = 0xD9 ∨ marker = 0xDA then none
      else if j + 2 > n then none
      else
        let seg_len := from_bytes_be ((data.drop j).take 2)
        if seg_len < 2 then none
        else
          let seg_start := j + 2
          let seg_end := seg_start + (seg_len - 2)
          if seg_end > n then none
          else
            some (processSegment ((data.drop seg_start).take (seg_len - 2)), seg_end)
  else none

theorem scanStep_bounds {data : List Nat} {i : Nat} {p : Option (List Nat)} {j : Nat}
    (h : scanStep data i = some (p, j)) : i + 4 ≤ j ∧ j ≤ data.length := by
  unfold scanStep at h
  simp at h
  omega

/-- The scan loop of `extract_xmp_packets` (lines 47-72 of the source),
started at position `i`: the list of packets appended from that point on. -/
def scanFrom (data : List Nat) (i : Nat) : List (List Nat) :=
  match h : scanStep data i with
  | none => []
  | some (op, j) =>
    match op with
    | some p => p :: scanFrom data j
    | none => scanFrom data j
termination_by data.length - i
decreasing_by
  · have := scanStep_bounds h
    omega
  · have := scanStep_bounds h
    omega

/-- Number of completed iterations of the scan loop started at position `i`. -/
def scanSteps (data : List Nat) (i : Nat) : Nat :=
  match h : scanStep data i with
  | none => 0
  | some (_, j) => scanSteps data j + 1
termination_by data.length - i
decreasing_by
  have := scanStep_bounds h
  omega

/-- Embedding of `extract_xmp_packets`: the lightweight JPEG APP1 scanner
pulling XMP blocks. -/
def extract_xmp_packets (data : List Nat) : List (List Nat) :=
  if startsWithB data soiMarker then scanFrom data 2 else []

/-- The four needle strings of `xmp_indicates_motion` (ASCII):
`MotionPhoto`, `MicroVideo`, `GCamera:MotionPhoto`, `Camera:MotionPhoto`. -/
def motionPhotoNeedle : List Nat := [77, 111, 116, 105, 111, 110, 80, 104, 111, 116, 111]

def microVideoNeedle : List Nat := [77, 105, 99, 114, 111, 86, 105, 100, 101, 111]

def gcameraMotionPhotoNeedle : List Nat :=
  [71, 67, 97, 109, 101, 114, 97, 58, 77, 111, 116, 105, 111, 110, 80, 104, 111, 116, 111]

def cameraMotionPhotoNeedle : List Nat :=
  [67, 97, 109, 101, 114, 97, 58, 77, 111, 116, 105, 111, 110, 80, 104, 111, 116, 111]

def needles : List (List Nat) :=
  [motionPhotoNeedle, microVideoNeedle, gcameraMotionPhotoNeedle, cameraMotionPhotoNeedle]

/-- Embedding of `xmp_indicates_motion`: true when any XMP block contains
any of the four needle strings as a substring. -/
def xmp_indicates_motion (xmps : List (List Nat)) : Bool :=
  xmps.any (fun x => needles.any (fun nd => containsSub x nd))

/-- Embedding of `find_appended_mp4`: look for `ftyp` in `data[jpeg_end:]`,
require a 4-byte size field before it, room for an 8-byte box header, and
a size value of at least 16; return the absolute container start. -/
def find_appended_mp4 (data : List Nat) (jpeg_end : Nat) : Option Nat :=
  match bytesFind ftypSig (data.drop jpeg_end) with
  | none => none
  | some idx =>
    if idx < 4 then none
    else if jpeg_end + (idx - 4) + 8 > data.length then none
    else if from_bytes_be ((data.drop (jpeg_end + (idx - 4))).take 4) < 16 then none
    else some (jpeg_end + (idx - 4))

/-- Embedding of the extraction step of `extract_from_file`
(lines 186-189 of the source): `mp4_data = data[mp4_offset:]`. -/
def extracted_mp4 (data : List Nat) (mp4_offset : Nat) : List Nat :=
  data.drop mp4_offset

theorem occursAt_lt_length {needle hay : List Nat} {j : Nat}
    (h : occursAt needle hay j) (hne : needle ≠ []) : j < hay.length := by
  have hd := startsWithB_nonempty h hne
  by_contra hc
  push_neg at hc
  rw [List.drop_eq_nil_of_le hc] at hd
  exact hd rfl

theorem occursAt_shift {needle data : List Nat} {b idx : Nat}
    (h : occursAt needle (data.drop b) idx) : occursAt needle data (b + idx) := by
  unfold occursAt at h ⊢
  rw [List.drop_drop] at h
  exact h

/-- C2: `find_jpeg_eoi` returns the index of the byte immediately after the
first occurrence of `0xFF 0xD9` (so the first match wins), and returns
`none` exactly when that byte pair occurs nowhere in the buffer. -/
theorem find_jpeg_eoi_correct (data : List Nat) :
    (∀ k, find_jpeg_eoi data = some k →
       2 ≤ k ∧ occursAt eoiMarker data (k - 2) ∧
         ∀ j < k - 2, ¬ occursAt eoiMarker data j) ∧
    (find_jpeg_eoi data = none ↔ ∀ j, ¬ occursAt eoiMarker data j) := by
  constructor
  · intro k hk
    unfold find_jpeg_eoi at hk
    cases hfind : bytesFind eoiMarker data with
    | none => rw [hfind] at hk; simp at hk
    | some i =>
      rw [hfind] at hk
      simp at hk
      subst hk
      refine ⟨by omega, ?_, ?_⟩
      · simpa using bytesFind_some_occurs hfind
      · intro j hj
        exact bytesFind_some_minimal hfind j (by omega)
  · constructor
    · intro h j
      unfold find_jpeg_eoi at h
      cases hfind : bytesFind eoiMarker data with
      | none => exact bytesFind_none_no_occurs hfind j
      | some i => rw [hfind] at h; simp at h
    · intro h
      unfold find_jpeg_eoi
      cases hfind : bytesFind eoiMarker data with
      | none => rfl
      | some i => exact absurd (bytesFind_some_occurs hfind) (h i)

/-- Witness for C2 at a concrete buffer with two `FFD9` pairs: the first
match (at index 0) wins and `find_jpeg_eoi` is `some 2`. -/
theorem find_jpeg_eoi_correct_witness :
    2 ≤ 2 ∧ occursAt eoiMarker [255, 217, 255, 217] 0 ∧
      ∀ j < 0, ¬ occursAt eoiMarker [255, 217, 255, 217] j := by
  have h := (find_jpeg_eoi_correct [255, 217, 255, 217]).1 2 (by decide)
  exact h

/-- C6: a buffer not beginning with the JPEG start-of-image marker `FFD8`
makes `extract_xmp_packets` return the empty sequence, as a normal result. -/
theorem extract_xmp_packets_no_soi (data : List Nat)
    (h : startsWithB data soiMarker = false) : extract_xmp_packets data = [] := by
  unfold extract_xmp_packets
  simp [h]

/-- Witness for C6: a concrete buffer not starting with `FFD8`. -/
theorem extract_xmp_packets_no_soi_witness :
    extract_xmp_packets [1, 2, 3, 255, 217] = [] :=
  extract_xmp_packets_no_soi [1, 2, 3, 255, 217] (by decide)

/-- C3: whenever `find_appended_mp4` returns an offset, that offset is at
or after the boundary, at least 8 bytes remain from it to the end of the
buffer, and the 4-byte big-endian size field at it is at least 16. -/
theorem find_appended_mp4_invariant (data : List Nat) (jpeg_end off : Nat)
    (h : find_appended_mp4 data jpeg_end = some off) :
    jpeg_end ≤ off ∧ off + 8 ≤ data.length ∧
      16 ≤ from_bytes_be ((data.drop off).take 4) := by
  unfold find_appended_mp4 at h
  cases hfind : bytesFind ftypSig (data.drop jpeg_end) with
  | none => rw [hfind] at h; simp at h
  | some idx =>
    rw [hfind] at h
    simp at h
    obtain ⟨h4, h8, h16, hoff⟩ := h
    subst hoff
    exact ⟨by omega, by omega, by omega⟩

/-- Witness for C3 at a concrete two-byte JPEG followed by a minimal
plausible container header. -/
theorem find_appended_mp4_invariant_witness :
    2 ≤ 2 ∧ 2 + 8 ≤ ([255, 217, 0, 0, 0, 16, 102, 116, 121, 112] : List Nat).length ∧
      16 ≤ from_bytes_be ((([255, 217, 0, 0, 0, 16, 102, 116, 121, 112] : List Nat).drop 2).take 4) :=
  find_appended_mp4_invariant [255, 217, 0, 0, 0, 16, 102, 116, 121, 112] 2 2 (by decide)

/-- C4: when no occurrence of `ftyp` starts at or after the boundary
offset (occurrences strictly before the boundary are allowed),
`find_appended_mp4` returns `none`. -/
theorem find_appended_mp4_no_ftyp (data : List Nat) (jpeg_end : Nat)
    (h : ∀ k, k < data.length → jpeg_end ≤ k → ¬ occursAt ftypSig data k) :
    find_appended_mp4 data jpeg_end = none := by
  unfold find_appended_mp4
  cases hfind : bytesFind ftypSig (data.drop jpeg_end) with
  | none => rfl
  | some idx =>
    exfalso
    have hocc : occursAt ftypSig data (jpeg_end + idx) :=
      occursAt_shift (bytesFind_some_occurs hfind)
    have hlt : jpeg_end + idx < data.length :=
      occursAt_lt_length hocc (by decide)
    exact h (jpeg_end + idx) hlt (by omega) hocc

/-- Witness for C4: a buffer whose only `ftyp` occurrence is strictly
before the boundary offset 6, so the locator reports not-found. -/
theorem find_appended_mp4_no_ftyp_witness :
    find_appended_mp4 ([255, 216] ++ ftypSig ++ [255, 217, 1, 2, 3]) 6 = none :=
  find_appended_mp4_no_ftyp ([255, 216] ++ ftypSig ++ [255, 217, 1, 2, 3]) 6 (by decide)

theorem bytesFind_eq_of_first {needle hay : List Nat} {zi : Nat}
    (hocc : occursAt needle hay zi) (hmin : ∀ j < zi, ¬ occursAt needle hay j) :
    bytesFind needle hay = some zi := by
  have hs := bytesFind_isSome_of_occurs hocc
  rw [Option.isSome_iff_exists] at hs
  obtain ⟨i, hi⟩ := hs
  have hio := bytesFind_some_occurs hi
  have himin := bytesFind_some_minimal hi
  have hiz : i = zi := by
    by_contra hne
    rcases Nat.lt_or_ge i zi with hlt | hge
    · exact hmin i hlt hio
    · exact himin zi (by omega) hocc
  rw [hiz] at hi
  exact hi

/-- A buffer with a spurious `ftyp` right at the boundary (no room for a
size field) followed by a fully valid appended container. -/
def spuriousFtypBuffer : List Nat :=
  [255, 217] ++ ftypSig ++ [0, 0, 0, 16] ++ ftypSig ++ [0, 0, 0, 0, 0, 0, 0, 0]

/-- C9: `find_appended_mp4` considers only the first `ftyp` occurrence in
the tail; when that sole candidate fails any sanity check the locator
returns `none` without examining later occurrences. Concretely,
`spuriousFtypBuffer` carries a valid container (size field 16 at offset 6,
`ftyp` at offset 10, 8 bytes of room) yet is classified not-found. -/
theorem find_appended_mp4_first_match_only :
    (∀ data jpeg_end idx, bytesFind ftypSig (data.drop jpeg_end) = some idx →
       (idx < 4 ∨ jpeg_end + (idx - 4) + 8 > data.length ∨
         from_bytes_be ((data.drop (jpeg_end + (idx - 4))).take 4) < 16) →
       find_appended_mp4 data jpeg_end = none) ∧
    (find_appended_mp4 spuriousFtypBuffer 2 = none ∧
      occursAt ftypSig spuriousFtypBuffer 10 ∧
      2 ≤ 6 ∧ 6 + 8 ≤ spuriousFtypBuffer.length ∧
      16 ≤ from_bytes_be ((spuriousFtypBuffer.drop 6).take 4)) := by
  constructor
  · intro data jpeg_end idx hfind hrej
    unfold find_appended_mp4
    rw [hfind]
    rcases hrej with h1 | h2 | h3
    · simp [h1]
    · by_cases h1 : idx < 4
      · simp [h1]
      · simp [h1, h2]
    · by_cases h1 : idx < 4
      · simp [h1]
      · by_cases h2 : jpeg_end + (idx - 4) + 8 > data.length
        · simp [h1, h2]
        · simp [h1, h2, h3]
  · refine ⟨by decide, by decide, by decide, by decide, by decide⟩

/-- Witness for the universal part of C9: a tail whose only `ftyp` starts
at tail index 0, leaving no room for the size field, is rejected. -/
theorem find_appended_mp4_first_match_only_witness :
    find_appended_mp4 ([255, 217] ++ ftypSig) 2 = none :=
  find_appended_mp4_first_match_only.1 ([255, 217] ++ ftypSig) 2 0 (by decide) (by decide)

theorem startsWithB_drop_head {l p : List Nat} {j c : Nat}
    (hp : startsWithB l p = true) (hj : j < p.length)
    (hc : startsWithB (l.drop j) [c] = true) : startsWithB (p.drop j) [c] = true := by
  induction j generalizing l p with
  | zero =>
    cases p with
    | nil => simp at hj
    | cons b bs =>
      cases l with
      | nil => simp [startsWithB] at hp
      | cons a as =>
        simp only [startsWithB, Bool.and_eq_true, beq_iff_eq] at hp hc ⊢
        exact ⟨hp.1 ▸ hc.1, hc.2⟩
  | succ m ih =>
    cases p with
    | nil => simp at hj
    | cons b bs =>
      cases l with
      | nil => simp [startsWithB] at hp
      | cons a as =>
        simp only [startsWithB, Bool.and_eq_true] at hp
        simp only [List.drop_succ_cons] at hc ⊢
        exact ih hp.2 (by simpa using hj) hc

/-- C7: for a segment payload beginning with the XMP namespace signature,
the packet appended is exactly the bytes after the first zero byte when a
zero byte exists (that first zero lies at or after the end of the
signature), and the raw payload unchanged when no zero byte exists. -/
theorem xmp_payload_rule (seg : List Nat) (h : startsWithB seg xmp_sig = true) :
    (∀ zi, occursAt [0] seg zi → (∀ j < zi, ¬ occursAt [0] seg j) →
       xmp_sig.length ≤ zi ∧ processSegment seg = some (seg.drop (zi + 1))) ∧
    ((∀ j, ¬ occursAt [0] seg j) → processSegment seg = some seg) := by
  constructor
  · intro zi hocc hmin
    have hfind : bytesFind [0] seg = some zi := bytesFind_eq_of_first hocc hmin
    constructor
    · by_contra hlt
      push_neg at hlt
      have hzero : startsWithB (xmp_sig.drop zi) [0] = true :=
        startsWithB_drop_head h hlt hocc
      have : ∀ j < xmp_sig.length, ¬ startsWithB (xmp_sig.drop j) [0] = true := by decide
      exact this zi hlt hzero
    · unfold processSegment
      rw [if_pos h, hfind]
  · intro hall
    have hfind : bytesFind [0] seg = none := by
      cases hf : bytesFind [0] seg with
      | none => rfl
      | some i => exact absurd (bytesFind_some_occurs hf) (hall i)
    unfold processSegment
    rw [if_pos h, hfind]

/-- Witness for C7 at the payload `xmp_sig ++ [0, 65]`: first zero at
index 28, packet is everything after it. -/
theorem xmp_payload_rule_witness :
    xmp_sig.length ≤ 28 ∧
      processSegment (xmp_sig ++ [0, 65]) = some ((xmp_sig ++ [0, 65]).drop 29) :=
  (xmp_payload_rule (xmp_sig ++ [0, 65]) (by decide)).1 28 (by decide) (by decide)

theorem scanSteps_le_aux (data : List Nat) :
    ∀ m i, data.length - i ≤ m → scanSteps data i ≤ (data.length - i) / 4 := by
  intro m
  induction m with
  | zero =>
    intro i hi
    have hstep : scanStep data i = none := by
      unfold scanStep
      have hnl : ¬ i < data.length - 1 := by omega
      simp [hnl]
    unfold scanSteps
    split
    · exact Nat.zero_le _
    · rename_i op j heq
      rw [hstep] at heq
      exact absurd heq (by simp)
  | succ m ih =>
    intro i hi
    unfold scanSteps
    split
    · exact Nat.zero_le _
    · rename_i op j heq
      have hb := scanStep_bounds heq
      have hih := ih j (by omega)
      have hstep4 : data.length - j + 4 ≤ data.length - i := by omega
      calc scanSteps data j + 1 ≤ (data.length - j) / 4 + 1 := by omega
        _ = (data.length - j + 4) / 4 := by
            rw [Nat.add_div_right _ (by norm_num)]
        _ ≤ (data.length - i) / 4 := Nat.div_le_div_right hstep4

/-- C8: the metadata scan is strictly forward: every completed iteration
advances the position by at least 4 bytes and never beyond the buffer, so
from any start position the loop performs at most `(length - start) / 4`
iterations, and the scan started at position 2 (as `extract_xmp_packets`
does) performs at most `length / 4` iterations. -/
theorem scan_termination (data : List Nat) :
    (∀ i op j, scanStep data i = some (op, j) → i + 4 ≤ j ∧ j ≤ data.length) ∧
    (∀ i, scanSteps data i ≤ (data.length - i) / 4) ∧
    scanSteps data 2 ≤ data.length / 4 := by
  refine ⟨fun i op j h => scanStep_bounds h, fun i => scanSteps_le_aux data _ i le_rfl, ?_⟩
  have h := scanSteps_le_aux data (data.length - 2) 2 le_rfl
  calc scanSteps data 2 ≤ (data.length - 2) / 4 := h
    _ ≤ data.length / 4 := Nat.div_le_div_right (by omega)

/-- Sample JPEG with one XMP APP1 segment, used by witnesses. -/
def xmpExampleJpeg : List Nat :=
  [255, 216, 255, 225, 0, 33] ++ xmp_sig ++ [0, 65, 66] ++ [255, 217]

/-- Witness for C8 at `xmpExampleJpeg`: the iteration at position 2
completes and advances to 37 (a step of 35 ≥ 4 bytes, within bounds). -/
theorem scan_termination_witness :
    2 + 4 ≤ 37 ∧ 37 ≤ xmpExampleJpeg.length :=
  (scan_termination xmpExampleJpeg).1 2 (some [65, 66]) 37 (by decide)

/-- C5: `xmp_indicates_motion` is true exactly when some payload contains
some of the four fixed needle strings as a contiguous substring. -/
theorem xmp_indicates_motion_iff (xmps : List (List Nat)) :
    xmp_indicates_motion xmps = true ↔
      ∃ x ∈ xmps, ∃ nd ∈ needles, ∃ j, occursAt nd x j := by
  unfold xmp_indicates_motion
  rw [List.any_eq_true]
  constructor
  · rintro ⟨x, hx, hpx⟩
    rw [List.any_eq_true] at hpx
    obtain ⟨nd, hnd, hc⟩ := hpx
    rw [containsSub_iff_occurs] at hc
    obtain ⟨j, hj⟩ := hc
    exact ⟨x, hx, nd, hnd, j, hj⟩
  · rintro ⟨x, hx, nd, hnd, j, hj⟩
    exact ⟨x, hx, List.any_eq_true.mpr
      ⟨nd, hnd, (containsSub_iff_occurs x nd).mpr ⟨j, hj⟩⟩⟩

theorem containsSub_of_append_needle {x p q : List Nat}
    (h : containsSub x (p ++ q) = true) : containsSub x q = true := by
  rw [containsSub_iff_occurs] at h ⊢
  obtain ⟨j, hj⟩ := h
  unfold occursAt at hj ⊢
  have hq := startsWithB_drop_of_append hj
  rw [List.drop_drop] at hq
  exact ⟨j + p.length, hq⟩

/-- The simpler evaluator the claim describes: test only the needles
`MotionPhoto` and `MicroVideo`. -/
def xmp_indicates_motion_two_needles (xmps : List (List Nat)) : Bool :=
  xmps.any (fun x => [motionPhotoNeedle, microVideoNeedle].any (fun nd => containsSub x nd))

theorem needles_any_eq_two (x : List Nat) :
    needles.any (fun nd => containsSub x nd) =
      [motionPhotoNeedle, microVideoNeedle].any (fun nd => containsSub x nd) := by
  have hg : containsSub x gcameraMotionPhotoNeedle = true →
      containsSub x motionPhotoNeedle = true := by
    intro hc
    have hsplit : gcameraMotionPhotoNeedle =
        [71, 67, 97, 109, 101, 114, 97, 58] ++ motionPhotoNeedle := by decide
    rw [hsplit] at hc
    exact containsSub_of_append_needle hc
  have hcam : containsSub x cameraMotionPhotoNeedle = true →
      containsSub x motionPhotoNeedle = true := by
    intro hc
    have hsplit : cameraMotionPhotoNeedle =
        [67, 97, 109, 101, 114, 97, 58] ++ motionPhotoNeedle := by decide
    rw [hsplit] at hc
    exact containsSub_of_append_needle hc
  simp only [needles, List.any_cons, List.any_nil, Bool.or_false]
  cases hmp : containsSub x motionPhotoNeedle with
  | true => simp
  | false =>
    cases hmv : containsSub x microVideoNeedle with
    | true => simp
    | false =>
      have hg0 : containsSub x gcameraMotionPhotoNeedle = false := by
        cases hgv : containsSub x gcameraMotionPhotoNeedle with
        | false => rfl
        | true => rw [hg hgv] at hmp; exact hmp
      have hc0 : containsSub x cameraMotionPhotoNeedle = false := by
        cases hcv : containsSub x cameraMotionPhotoNeedle with
        | false => rfl
        | true => rw [hcam hcv] at hmp; exact hmp
      simp [hg0, hc0]

/-- C10: the four-needle Motion Flag Evaluator is extensionally equal to
the two-needle evaluator, because `GCamera:MotionPhoto` and
`Camera:MotionPhoto` each contain `MotionPhoto` as a substring. -/
theorem xmp_indicates_motion_eq_two_needles (xmps : List (List Nat)) :
    xmp_indicates_motion xmps = xmp_indicates_motion_two_needles xmps := by
  unfold xmp_indicates_motion xmp_indicates_motion_two_needles
  induction xmps with
  | nil => rfl
  | cons x xs ih => simp only [List.any_cons, ih, needles_any_eq_two x]

/-- C1: round-trip of location and extraction. For a buffer
`jpeg ++ container` where the first `FFD9` occurrence ends exactly at the
end of `jpeg`, `container` begins with a 4-byte big-endian size field of
value at least 16 followed immediately by `ftyp`, and no earlier `ftyp`
occurrence starts at or after the boundary, the boundary locator returns
`jpeg.length`, the container locator returns exactly `jpeg.length`, and
the extracted output equals `container` byte for byte. -/
theorem round_trip_extraction (jpeg container : List Nat)
    (hj2 : 2 ≤ jpeg.length)
    (heoi : occursAt eoiMarker (jpeg ++ container) (jpeg.length - 2))
    (hfirst : ∀ j < jpeg.length - 2, ¬ occursAt eoiMarker (jpeg ++ container) j)
    (hcont : ∃ sz rest, container = sz ++ ftypSig ++ rest ∧
       sz.length = 4 ∧ 16 ≤ from_bytes_be sz)
    (hnoftyp : ∀ k < jpeg.length + 4, jpeg.length ≤ k →
       ¬ occursAt ftypSig (jpeg ++ container) k) :
    find_jpeg_eoi (jpeg ++ container) = some jpeg.length ∧
    find_appended_mp4 (jpeg ++ container) jpeg.length = some jpeg.length ∧
    extracted_mp4 (jpeg ++ container) jpeg.length = container := by
  obtain ⟨sz, rest, hc, hsz4, hsz16⟩ := hcont
  have hdropjl : (jpeg ++ container).drop jpeg.length = container :=
    List.drop_left jpeg container
  have h1 : find_jpeg_eoi (jpeg ++ container) = some jpeg.length := by
    unfold find_jpeg_eoi
    rw [bytesFind_eq_of_first heoi hfirst]
    have he : jpeg.length - 2 + 2 = jpeg.length := by omega
    simp [he]
  have hocc4 : occursAt ftypSig container 4 := by
    unfold occursAt
    rw [hc, List.append_assoc, ← hsz4, List.drop_left]
    exact startsWithB_refl_append ftypSig rest
  have hmin4 : ∀ j < 4, ¬ occursAt ftypSig container j := by
    intro j hj hocc
    have hoccfull : occursAt ftypSig (jpeg ++ container) (jpeg.length + j) := by
      unfold occursAt at hocc ⊢
      rw [← hdropjl] at hocc
      rw [List.drop_drop] at hocc
      exact hocc
    exact hnoftyp (jpeg.length + j) (by omega) (by omega) hoccfull
  have hfind2 : bytesFind ftypSig container = some 4 :=
    bytesFind_eq_of_first hocc4 hmin4
  have hclen : 8 ≤ container.length := by
    rw [hc]
    simp only [List.length_append, hsz4]
    have : ftypSig.length = 4 := by decide
    omega
  have htake : container.take 4 = sz := by
    rw [hc, List.append_assoc, ← hsz4, List.take_left]
  have h2 : find_appended_mp4 (jpeg ++ container) jpeg.length = some jpeg.length := by
    unfold find_appended_mp4
    rw [hdropjl, hfind2]
    simp only [Nat.sub_self, Nat.add_zero]
    rw [if_neg (by omega : ¬ (4:Nat) < 4)]
    rw [if_neg (show ¬ jpeg.length + 8 > (jpeg ++ container).length by
      rw [List.length_append]; omega)]
    rw [hdropjl, htake]
    rw [if_neg (by omega : ¬ from_bytes_be sz < 16)]
  exact ⟨h1, h2, hdropjl⟩

/-- Witness for C1 at a two-byte JPEG (just the `FFD9` pair) followed by
a 16-byte container whose size field is 16. -/
theorem round_trip_extraction_witness :
    find_jpeg_eoi ([255, 217] ++ ([0, 0, 0, 16] ++ ftypSig ++ [1, 2, 3, 4, 5, 6, 7, 8])) =
        some ([255, 217] : List Nat).length ∧
    find_appended_mp4 ([255, 217] ++ ([0, 0, 0, 16] ++ ftypSig ++ [1, 2, 3, 4, 5, 6, 7, 8]))
        ([255, 217] : List Nat).length = some ([255, 217] : List Nat).length ∧
    extracted_mp4 ([255, 217] ++ ([0, 0, 0, 16] ++ ftypSig ++ [1, 2, 3, 4, 5, 6, 7, 8]))
        ([255, 217] : List Nat).length = [0, 0, 0, 16] ++ ftypSig ++ [1, 2, 3, 4, 5, 6, 7, 8] :=
  round_trip_extraction [255, 217] ([0, 0, 0, 16] ++ ftypSig ++ [1, 2, 3, 4, 5, 6, 7, 8])
    (by decide) (by decide) (by decide)
    ⟨[0, 0, 0, 16], [1, 2, 3, 4, 5, 6, 7, 8], rfl, rfl, by decide⟩
    (by decide)
